import Mathlib

/-!
Formal model of the text-rendering layer of the Hashing Concepts Lab
(`demos/ui.py` and `demos/avalanche.py`).  Python strings are modelled as
`List Char`; ANSI escape sequences are ordinary characters in those lists.
All definitions are transcribed from the Python source.
-/

namespace HashingLab

/-- The ASCII escape character `\033` used by every ANSI color constant. -/
def escChar : Char := Char.ofNat 27

/-- ANSI constant `C_RESET = "\033[0m"` from `demos/ui.py`. -/
def cReset : List Char := [escChar, '[', '0', 'm']

/-- ANSI constant `C_DIM = "\033[2m"` from `demos/ui.py`. -/
def cDim : List Char := [escChar, '[', '2', 'm']

/-- ANSI constant `C_BOLD = "\033[1m"` from `demos/ui.py`. -/
def cBold : List Char := [escChar, '[', '1', 'm']

/-- ANSI constant `C_RED = "\033[91m"` from `demos/ui.py`. -/
def cRed : List Char := [escChar, '[', '9', '1', 'm']

/-- ANSI constant `C_GREEN = "\033[92m"` from `demos/ui.py`. -/
def cGreen : List Char := [escChar, '[', '9', '2', 'm']

/-- ANSI constant `C_CYAN = "\033[96m"` from `demos/ui.py`. -/
def cCyan : List Char := [escChar, '[', '9', '6', 'm']

/-- Character class `[0-9;]` of the regex `\033\[[0-9;]*m` in `strip_ansi`. -/
def isParamChar (c : Char) : Bool := c.isDigit || c == ';'

/-- Attempt to match the regex `\033\[[0-9;]*m` at the start of the list.
On success, return the remainder of the list after the match.  The class
`[0-9;]*` is greedy and excludes `m`, so the regex matches here exactly when
the maximal run of parameter characters is followed by `m`. -/
def matchSgr (l : List Char) : Option (List Char) :=
  match l with
  | c₁ :: c₂ :: cs =>
    if c₁ = escChar ∧ c₂ = '[' then
      match cs.dropWhile isParamChar with
      | 'm' :: rest => some rest
      | _ => none
    else none
  | _ => none

/-- Fuel-indexed worker for `stripAnsi`: scan left to right, deleting each
leftmost non-overlapping match of `\033\[[0-9;]*m` (the semantics of
`re.sub(r"\033\[[0-9;]*m", "", text)` in `strip_ansi`). -/
def stripAnsiF : ℕ → List Char → List Char
  | 0, l => l
  | _ + 1, [] => []
  | fuel + 1, c :: cs =>
    match matchSgr (c :: cs) with
    | some rest => stripAnsiF fuel rest
    | none => c :: stripAnsiF fuel cs

/-- Model of `strip_ansi(text)` from `demos/ui.py`:
`re.sub(r"\033\[[0-9;]*m", "", text)`. -/
def stripAnsi (l : List Char) : List Char := stripAnsiF l.length l

/-- Model of `len(strip_ansi(text))`, the visible width used throughout
`demos/ui.py` for padding. -/
def visibleLen (l : List Char) : ℕ := (stripAnsi l).length

/-- A segment of StyledText: either a run of visible display characters or a
non-printing SGR style marker `\033[<params>m` (the only styling the module
emits, via its `C_*` constants). -/
inductive Seg
  | span (s : List Char)
  | marker (params : List Char)

/-- The raw characters a segment contributes to the actual string. -/
def Seg.render : Seg → List Char
  | .span s => s
  | .marker p => escChar :: '[' :: (p ++ ['m'])

/-- The visible characters a segment contributes (a marker contributes none). -/
def Seg.visible : Seg → List Char
  | .span s => s
  | .marker _ => []

/-- Well-formedness: spans hold display characters (no raw escape byte) and
marker parameters lie in the class `[0-9;]`. -/
def Seg.wf : Seg → Bool
  | .span s => s.all (fun c => c != escChar)
  | .marker p => p.all isParamChar

/-- The raw string a StyledText denotes. -/
def renderST (segs : List Seg) : List Char := (segs.map Seg.render).flatten

/-- The plain visible content of a StyledText: its spans concatenated in order. -/
def visibleContent (segs : List Seg) : List Char := (segs.map Seg.visible).flatten

/-- All segments well formed. -/
def wfStyled (segs : List Seg) : Bool := segs.all Seg.wf

/-- Width resolution of `draw_box`: an explicit width is used as is; otherwise
`max(len(strip_ansi(line)) for line in content_lines) + 2`.  Python's `max()`
raises `ValueError` on an empty sequence, modelled as `none`. -/
def resolveWidth (w : Option ℕ) (contentLines : List (List Char)) : Option ℕ :=
  match w with
  | some width => some width
  | none =>
    match contentLines.map visibleLen with
    | [] => none
    | v :: vs => some (vs.foldl max v + 2)

/-- The number of pad spaces a `draw_box` content row receives:
`padding = width - visible_len` as a Python int, where `' ' * padding` yields
the empty string when `padding` is negative — hence `Int.toNat`. -/
def boxPad (width : ℕ) (line : List Char) : ℕ :=
  ((width : ℤ) - visibleLen line).toNat

/-- One content row of `draw_box`:
`f"    {color}{BOX_V}{C_RESET}{line}{' ' * padding}{color}{BOX_V}{C_RESET}"`. -/
def boxRow (color : List Char) (width : ℕ) (line : List Char) : List Char :=
  [' ', ' ', ' ', ' '] ++ color ++ ['│'] ++ cReset ++ line ++
    List.replicate (boxPad width line) ' ' ++ color ++ ['│'] ++ cReset

/-- Top border of `draw_box`:
`f"    {color}{BOX_TL}{BOX_H * width}{BOX_TR}{C_RESET}"`. -/
def boxTop (color : List Char) (width : ℕ) : List Char :=
  [' ', ' ', ' ', ' '] ++ color ++ ['┌'] ++ List.replicate width '─' ++ ['┐'] ++ cReset

/-- Bottom border of `draw_box`:
`f"    {color}{BOX_BL}{BOX_H * width}{BOX_BR}{C_RESET}"`. -/
def boxBottom (color : List Char) (width : ℕ) : List Char :=
  [' ', ' ', ' ', ' '] ++ color ++ ['└'] ++ List.replicate width '─' ++ ['┘'] ++ cReset

/-- Model of `draw_box(content_lines, width, color)`: the list of printed
lines, or `none` when width resolution raises. -/
def drawBox (contentLines : List (List Char)) (w : Option ℕ) (color : List Char) :
    Option (List (List Char)) :=
  match resolveWidth w contentLines with
  | none => none
  | some width =>
    some (boxTop color width :: contentLines.map (boxRow color width) ++
      [boxBottom color width])

/-- Python `", ".join(items)`. -/
def joinComma : List (List Char) → List Char
  | [] => []
  | [s] => s
  | s :: rest => s ++ [',', ' '] ++ joinComma rest

/-- The fixed content-column width `content_w = 44` of `draw_buckets`. -/
def contentW : ℕ := 44

/-- The content cell of one `draw_buckets` row: the comma-joined bucket items,
or the dimmed literal `empty` for an empty bucket, prefixed by one space and
padded with `' ' * max(pad, 0)` where `pad = content_w - visible_len - 1`. -/
def contentCell (bucket : List (List Char)) : List Char :=
  let itemsStr := match bucket with
    | [] => cDim ++ ['e', 'm', 'p', 't', 'y'] ++ cReset
    | _ => joinComma bucket
  let pad : ℤ := (contentW : ℤ) - visibleLen itemsStr - 1
  [' '] ++ itemsStr ++ List.replicate (max pad 0).toNat ' '

/-- The paired mismatch count `sum(1 for a, b in zip(x, y) if a != b)` used by
`demos/avalanche.py` for characters, hex digits and bits: comparison stops at
the shorter list, exactly as `zip` does. -/
def countMismatch : List Char → List Char → ℕ
  | a :: as, b :: bs => (if a = b then 0 else 1) + countMismatch as bs
  | _, _ => 0

/-- The per-position mismatch total written in the spec,
`Σ_i [a_i ≠ b_i]` over the positions of `a`. -/
def specMismatchSum (a b : List Char) : ℕ :=
  ∑ i ∈ Finset.range a.length, if a.getD i ' ' = b.getD i ' ' then 0 else 1

/-- Python `s.ljust(n)`: right-pad with spaces to length `n`. -/
def ljust (s : List Char) (n : ℕ) : List Char :=
  s ++ List.replicate (n - s.length) ' '

/-- The CHARACTER-granularity mismatch count of `demos/avalanche.py`
(lines 98-114): both inputs are space-padded to the longer length, compared
pairwise over the padded strings, then `abs(len(in_a) - len(in_b))` is added. -/
def charDiffs (a b : List Char) : ℕ :=
  countMismatch (ljust a (max a.length b.length)) (ljust b (max a.length b.length)) +
    ((a.length : ℤ) - b.length).natAbs

/-- Mismatch count as the SPEC describes CHARACTER granularity: positions of
the common prefix compared, plus the absolute length difference. -/
def specCharDiffs (a b : List Char) : ℕ :=
  countMismatch a b + ((a.length : ℤ) - b.length).natAbs

/-- The characters of the longer input beyond the shorter length that are not
the space character: exactly the positions the padded comparison of
`charDiffs` scores in addition to `specCharDiffs`. -/
def extraNonSpace (a b : List Char) : ℕ :=
  ((a.drop b.length).filter (fun c => c != ' ')).length +
    ((b.drop a.length).filter (fun c => c != ' ')).length

/-- The hex comparison loop of `demos/avalanche.py` (lines 137-144): builds the
marker line (dim `·` for a match, red `^` for a mismatch) and the running
`hex_diffs` count over `zip(h_a, h_b)`. -/
def hexDiffLine : List (Char × Char) → List Char × ℕ
  | [] => ([], 0)
  | (ca, cb) :: rest =>
    let r := hexDiffLine rest
    if ca = cb then (cDim ++ ['·'] ++ cReset ++ r.1, r.2)
    else (cRed ++ ['^'] ++ cReset ++ r.1, r.2 + 1)

/-- One marker of the bit-view diff line: dim `·` on match, red `^` on
mismatch. -/
def bitMarker (ca cb : Char) : List Char :=
  if ca = cb then cDim ++ ['·'] ++ cReset else cRed ++ ['^'] ++ cReset

/-- The bit-view display loop of `demos/avalanche.py` (lines 177-191),
restricted to the marker line: position `i` runs over the first `showBits`
bits, and a space is inserted after every 8th bit except after the last. -/
def bitMarkerAux (showBits : ℕ) : ℕ → List (Char × Char) → List Char
  | _, [] => []
  | i, (ca, cb) :: rest =>
    bitMarker ca cb ++
      (if (i + 1) % 8 = 0 ∧ i < showBits - 1 then [' '] else []) ++
      bitMarkerAux showBits (i + 1) rest

/-- The rendered marker line for the first `showBits` bit positions. -/
def bitMarkerLine (ba bb : List Char) (showBits : ℕ) : List Char :=
  bitMarkerAux showBits 0 ((ba.take showBits).zip (bb.take showBits))

/-- Part 3 of `demos/avalanche.py`: `bit_diffs_total` is computed by line 171
over the FULL bit strings, before and independently of the display loop that
renders only the first `showBits` positions. -/
def avalanchePart3 (ba bb : List Char) (showBits : ℕ) : ℕ × List Char :=
  (countMismatch ba bb, bitMarkerLine ba bb showBits)

/-- Number of mismatch carets `^` in a rendered marker line. -/
def caretCount (l : List Char) : ℕ := l.count '^'

/-- Python's two-argument `min(a, b)`: `a` when `a <= b`, else `b`. -/
def pyMin (a b : ℚ) : ℚ := if a ≤ b then a else b

/-- Model of the `progress_bar(label_text, seconds)` loop of `demos/ui.py`.
Wall-clock readings are supplied as `elapsedAt tick`; each iteration computes
`pct = min(elapsed / seconds, 1.0)`, redraws, and exits when `pct >= 1.0`.
A division by zero (Python `ZeroDivisionError`) is `none`; `some (some n)`
means the loop completed after `n` redraws; `some none` means the given fuel
ran out with the loop still running. -/
def progressRun (seconds : ℚ) (elapsedAt : ℕ → ℚ) : ℕ → ℕ → Option (Option ℕ)
  | 0, _ => some none
  | fuel + 1, ticks =>
    if seconds = 0 then none
    else
      if 1 ≤ pyMin (elapsedAt ticks / seconds) 1 then some (some (ticks + 1))
      else progressRun seconds elapsedAt fuel (ticks + 1)

/-- Model of `toy_hash(text, num_buckets)` from `demos/ui.py`:
`sum(ord(c) for c in text) % num_buckets`. -/
def toyHash (text : List Char) (numBuckets : ℕ) : ℕ :=
  (text.map Char.toNat).sum % numBuckets

/-! Basic lemmas about `matchSgr` and `stripAnsi`. -/

theorem length_dropWhile_le (p : Char → Bool) (l : List Char) :
    (l.dropWhile p).length ≤ l.length := by
  induction l with
  | nil => simp
  | cons c cs ih =>
    by_cases h : p c
    · rw [List.dropWhile_cons_of_pos h]; exact ih.trans (Nat.le_succ _)
    · rw [List.dropWhile_cons_of_neg h]

theorem matchSgr_length_le {c : Char} {cs rest : List Char}
    (h : matchSgr (c :: cs) = some rest) : rest.length ≤ cs.length := by
  cases cs with
  | nil => simp [matchSgr] at h
  | cons c₂ cs' =>
    simp only [matchSgr] at h
    split at h
    · split at h
      · rename_i rest' heq
        have hlen : ((cs'.dropWhile isParamChar).length ≤ cs'.length) :=
          length_dropWhile_le _ _
        rw [heq] at hlen
        simp only [Option.some.injEq] at h
        subst h
        simp only [List.length_cons] at hlen ⊢
        omega
      · exact absurd h (by simp)
    · exact absurd h (by simp)

theorem stripAnsiF_congr :
    ∀ (f₁ f₂ : ℕ) (l : List Char), l.length ≤ f₁ → l.length ≤ f₂ →
      stripAnsiF f₁ l = stripAnsiF f₂ l := by
  intro f₁
  induction f₁ with
  | zero =>
    intro f₂ l h₁ _
    have : l = [] := List.length_eq_zero.mp (Nat.le_zero.mp h₁)
    subst this
    cases f₂ <;> rfl
  | succ f ih =>
    intro f₂ l h₁ h₂
    cases l with
    | nil => cases f₂ <;> rfl
    | cons c cs =>
      cases f₂ with
      | zero => exact absurd h₂ (by simp)
      | succ f' =>
        simp only [List.length_cons, Nat.succ_le_succ_iff] at h₁ h₂
        cases hm : matchSgr (c :: cs) with
        | some rest =>
          have hr := matchSgr_length_le hm
          simp only [stripAnsiF, hm]
          exact ih f' rest (hr.trans h₁) (hr.trans h₂)
        | none =>
          simp only [stripAnsiF, hm]
          rw [ih f' cs h₁ h₂]

theorem stripAnsiF_eq_stripAnsi {fuel : ℕ} {l : List Char} (h : l.length ≤ fuel) :
    stripAnsiF fuel l = stripAnsi l :=
  stripAnsiF_congr fuel l.length l h (le_refl _)

theorem stripAnsi_cons_match {c : Char} {cs rest : List Char}
    (h : matchSgr (c :: cs) = some rest) :
    stripAnsi (c :: cs) = stripAnsi rest := by
  show stripAnsiF (cs.length + 1) (c :: cs) = _
  simp only [stripAnsiF, h]
  exact stripAnsiF_eq_stripAnsi (matchSgr_length_le h)

theorem stripAnsi_cons_nomatch {c : Char} {cs : List Char}
    (h : matchSgr (c :: cs) = none) :
    stripAnsi (c :: cs) = c :: stripAnsi cs := by
  show stripAnsiF (cs.length + 1) (c :: cs) = _
  simp only [stripAnsiF, h]
  rfl

theorem matchSgr_nonesc {c : Char} (h : ¬ c = escChar) (l : List Char) :
    matchSgr (c :: l) = none := by
  cases l with
  | nil => rfl
  | cons d ds => simp [matchSgr, h]

theorem dropWhile_append_of_all {p : Char → Bool} {l₁ l₂ : List Char}
    (h : ∀ c ∈ l₁, p c = true) :
    (l₁ ++ l₂).dropWhile p = l₂.dropWhile p := by
  induction l₁ with
  | nil => rfl
  | cons c cs ih =>
    rw [List.cons_append, List.dropWhile_cons_of_pos (h c (by simp))]
    exact ih fun x hx => h x (by simp [hx])

theorem matchSgr_sgr {p : List Char} (rest : List Char)
    (hp : ∀ c ∈ p, isParamChar c = true) :
    matchSgr (escChar :: '[' :: (p ++ 'm' :: rest)) = some rest := by
  simp only [matchSgr]
  rw [dropWhile_append_of_all hp, List.dropWhile_cons_of_neg (by decide)]
  simp

theorem stripAnsi_sgr {p : List Char} (rest : List Char)
    (hp : ∀ c ∈ p, isParamChar c = true) :
    stripAnsi (escChar :: '[' :: (p ++ 'm' :: rest)) = stripAnsi rest :=
  stripAnsi_cons_match (matchSgr_sgr rest hp)

theorem stripAnsi_span_append {s : List Char} (rest : List Char)
    (hs : ∀ c ∈ s, ¬ c = escChar) :
    stripAnsi (s ++ rest) = s ++ stripAnsi rest := by
  induction s with
  | nil => rfl
  | cons c cs ih =>
    rw [List.cons_append,
      stripAnsi_cons_nomatch (matchSgr_nonesc (hs c (by simp)) _),
      ih fun x hx => hs x (by simp [hx]), List.cons_append]

theorem stripAnsi_nil : stripAnsi [] = [] := rfl

theorem stripAnsi_noesc {s : List Char} (hs : ∀ c ∈ s, ¬ c = escChar) :
    stripAnsi s = s := by
  have := stripAnsi_span_append (s := s) [] hs
  simpa [stripAnsi_nil] using this

theorem renderST_cons (seg : Seg) (rest : List Seg) :
    renderST (seg :: rest) = seg.render ++ renderST rest := by
  simp [renderST]

theorem visibleContent_cons (seg : Seg) (rest : List Seg) :
    visibleContent (seg :: rest) = seg.visible ++ visibleContent rest := by
  simp [visibleContent]

theorem stripAnsi_renderST {segs : List Seg} (h : wfStyled segs = true) :
    stripAnsi (renderST segs) = visibleContent segs := by
  induction segs with
  | nil => rfl
  | cons seg rest ih =>
    rw [wfStyled, List.all_cons, Bool.and_eq_true] at h
    obtain ⟨hseg, hrest⟩ := h
    rw [renderST_cons, visibleContent_cons]
    cases seg with
    | span s =>
      have hs : ∀ c ∈ s, ¬ c = escChar := by
        rw [Seg.wf, List.all_eq_true] at hseg
        intro c hc
        simpa using hseg c hc
      rw [Seg.render, Seg.visible, stripAnsi_span_append _ hs, ih hrest]
    | marker p =>
      have hp : ∀ c ∈ p, isParamChar c = true := by
        rw [Seg.wf, List.all_eq_true] at hseg
        exact hseg
      rw [Seg.render, Seg.visible, List.nil_append]
      have : escChar :: '[' :: (p ++ ['m']) ++ renderST rest =
          escChar :: '[' :: (p ++ 'm' :: renderST rest) := by
        simp
      rw [this, stripAnsi_sgr _ hp, ih hrest]

theorem visibleLen_renderST {segs : List Seg} (h : wfStyled segs = true) :
    visibleLen (renderST segs) = (visibleContent segs).length := by
  rw [visibleLen, stripAnsi_renderST h]

/-! Lemmas about mismatch counting. -/

theorem countMismatch_self : ∀ (a : List Char), countMismatch a a = 0 := by
  intro a
  induction a with
  | nil => rfl
  | cons c cs ih => simp [countMismatch, ih]

theorem countMismatch_eq_specSum :
    ∀ {a b : List Char}, a.length = b.length →
      countMismatch a b = specMismatchSum a b := by
  intro a
  induction a with
  | nil =>
    intro b h
    simp [countMismatch, specMismatchSum]
  | cons a₀ as ih =>
    intro b h
    cases b with
    | nil => simp at h
    | cons b₀ bs =>
      simp only [List.length_cons, Nat.add_right_cancel_iff] at h
      have ihs := ih h
      rw [specMismatchSum] at ihs ⊢
      simp only [List.length_cons]
      rw [Finset.sum_range_succ']
      simp only [List.getD_cons_succ, List.getD_cons_zero]
      simp only [countMismatch] at ihs ⊢
      omega

theorem countMismatch_eq_filter_zip :
    ∀ (a b : List Char),
      countMismatch a b = ((a.zip b).filter (fun p => p.1 != p.2)).length := by
  intro a
  induction a with
  | nil => intro b; rfl
  | cons a₀ as ih =>
    intro b
    cases b with
    | nil => rfl
    | cons b₀ bs =>
      rw [List.zip_cons_cons]
      by_cases h : a₀ = b₀ <;> simp [countMismatch, h, ih bs] <;> omega

theorem countMismatch_replicate_space :
    ∀ (b : List Char),
      countMismatch (List.replicate b.length ' ') b =
        (b.filter (fun c => c != ' ')).length := by
  intro b
  induction b with
  | nil => rfl
  | cons c cs ih =>
    rw [List.length_cons, List.replicate_succ]
    by_cases h : c = ' '
    · subst h
      simp [countMismatch, ih]
    · have h' : ¬ (' ' = c) := fun hh => h hh.symm
      simp [countMismatch, h, h', ih]
      omega

theorem countMismatch_comm : ∀ (a b : List Char),
    countMismatch a b = countMismatch b a := by
  intro a
  induction a with
  | nil => intro b; cases b <;> rfl
  | cons a₀ as ih =>
    intro b
    cases b with
    | nil => rfl
    | cons b₀ bs => simp [countMismatch, ih bs, eq_comm]

theorem ljust_cons (c : Char) (s : List Char) (n : ℕ) :
    ljust (c :: s) (n + 1) = c :: ljust s n := by
  simp [ljust, Nat.succ_sub_succ]

theorem ljust_self (s : List Char) : ljust s s.length = s := by
  simp [ljust]

/-! Lemmas about the fold computing the maximum visible width. -/

theorem le_foldl_max : ∀ (xs : List ℕ) (v : ℕ), v ≤ xs.foldl max v := by
  intro xs
  induction xs with
  | nil => intro v; exact le_refl v
  | cons x xs ih =>
    intro v
    exact (le_max_left v x).trans (ih (max v x))

theorem mem_le_foldl_max :
    ∀ (xs : List ℕ) (v x : ℕ), x ∈ xs → x ≤ xs.foldl max v := by
  intro xs
  induction xs with
  | nil => intro v x hx; simp at hx
  | cons y ys ih =>
    intro v x hx
    rcases List.mem_cons.mp hx with h | h
    · subst h
      exact (le_max_right v x).trans (le_foldl_max ys (max v x))
    · exact ih (max v y) x h

theorem foldl_max_mem :
    ∀ (xs : List ℕ) (v : ℕ), xs.foldl max v = v ∨ xs.foldl max v ∈ xs := by
  intro xs
  induction xs with
  | nil => intro v; exact Or.inl rfl
  | cons y ys ih =>
    intro v
    rcases ih (max v y) with h | h
    · rcases max_choice v y with hv | hy
      · exact Or.inl (by rw [List.foldl_cons, h, hv])
      · exact Or.inr (by rw [List.foldl_cons, h, hy]; exact List.mem_cons_self _ _)
    · exact Or.inr (List.mem_cons_of_mem _ h)

/-! Lemmas about the diff marker lines. -/

theorem hexDiffLine_snd : ∀ (a b : List Char),
    (hexDiffLine (a.zip b)).2 = countMismatch a b := by
  intro a
  induction a with
  | nil => intro b; rfl
  | cons a₀ as ih =>
    intro b
    cases b with
    | nil => rfl
    | cons b₀ bs =>
      rw [List.zip_cons_cons]
      by_cases h : a₀ = b₀ <;> simp [hexDiffLine, countMismatch, h, ih bs] <;> omega

theorem hexDiffLine_self : ∀ (a : List Char),
    (hexDiffLine (a.zip a)).1 =
        (List.replicate a.length (cDim ++ ['·'] ++ cReset)).flatten ∧
      (hexDiffLine (a.zip a)).2 = 0 := by
  intro a
  induction a with
  | nil => exact ⟨rfl, rfl⟩
  | cons a₀ as ih =>
    rw [List.zip_cons_cons, List.length_cons, List.replicate_succ]
    simp [hexDiffLine, ih.1, ih.2]

theorem caretCount_append (l₁ l₂ : List Char) :
    caretCount (l₁ ++ l₂) = caretCount l₁ + caretCount l₂ :=
  List.count_append _ _ _

theorem caretCount_bitMarkerAux (k : ℕ) :
    ∀ (ps : List (Char × Char)) (i : ℕ),
      caretCount (bitMarkerAux k i ps) =
        (ps.filter (fun p => p.1 != p.2)).length := by
  intro ps
  induction ps with
  | nil => intro i; rfl
  | cons p rest ih =>
    intro i
    obtain ⟨ca, cb⟩ := p
    rw [bitMarkerAux, caretCount_append, caretCount_append]
    have hsp : caretCount (if (i + 1) % 8 = 0 ∧ i < k - 1 then [' '] else []) = 0 := by
      split <;> decide
    by_cases h : ca = cb
    · subst h
      have hm : caretCount (bitMarker ca ca) = 0 := by
        rw [bitMarker, if_pos rfl]; decide
      simp [hm, hsp, ih (i + 1)]
    · have hm : caretCount (bitMarker ca cb) = 1 := by
        rw [bitMarker, if_neg h]; decide
      simp [hm, hsp, ih (i + 1), h]
      omega

theorem caretCount_bitMarkerLine (ba bb : List Char) (k : ℕ) :
    caretCount (bitMarkerLine ba bb k) =
      countMismatch (ba.take k) (bb.take k) := by
  rw [bitMarkerLine, caretCount_bitMarkerAux, ← countMismatch_eq_filter_zip]

theorem joinComma_noesc :
    ∀ (its : List (List Char)), (∀ s ∈ its, ∀ c ∈ s, ¬ c = escChar) →
      ∀ c ∈ joinComma its, ¬ c = escChar := by
  intro its
  induction its with
  | nil =>
    intro _ c hc
    simp [joinComma] at hc
  | cons s rest ih =>
    intro h c hc
    cases rest with
    | nil => exact h s (by simp) c (by simpa [joinComma] using hc)
    | cons t ts =>
      have : joinComma (s :: t :: ts) = s ++ [',', ' '] ++ joinComma (t :: ts) := rfl
      rw [this] at hc
      rcases List.mem_append.mp hc with h1 | h2
      · rcases List.mem_append.mp h1 with ha | hb
        · exact h s (by simp) c ha
        · rcases List.mem_cons.mp hb with hcm | hcm
          · subst hcm; decide
          · rcases List.mem_cons.mp hcm with hcm' | hcm'
            · subst hcm'; decide
            · simp at hcm'
      · exact ih (fun u hu => h u (List.mem_cons_of_mem _ hu)) c h2

theorem stripAnsi_boxRow (segs : List Seg) (cp : List Char) (width : ℕ)
    (hw : wfStyled segs = true) (hcp : ∀ c ∈ cp, isParamChar c = true) :
    stripAnsi (boxRow (Seg.render (.marker cp)) width (renderST segs)) =
      [' ', ' ', ' ', ' '] ++ ['│'] ++ visibleContent segs ++
        List.replicate (boxPad width (renderST segs)) ' ' ++ ['│'] := by
  have hrow : boxRow (Seg.render (.marker cp)) width (renderST segs) =
      renderST ([Seg.span [' ', ' ', ' ', ' '], Seg.marker cp, Seg.span ['│'],
        Seg.marker ['0']] ++ segs ++
        [Seg.span (List.replicate (boxPad width (renderST segs)) ' '),
         Seg.marker cp, Seg.span ['│'], Seg.marker ['0']]) := by
    simp [boxRow, renderST, Seg.render, cReset]
  have hcp' : cp.all isParamChar = true := List.all_eq_true.mpr hcp
  have hsp : (List.replicate (boxPad width (renderST segs)) ' ').all
      (fun c => c != escChar) = true := by
    rw [List.all_eq_true]
    intro c hc
    rw [List.eq_of_mem_replicate hc]
    decide
  have hw' : segs.all Seg.wf = true := hw
  have hwf : wfStyled ([Seg.span [' ', ' ', ' ', ' '], Seg.marker cp, Seg.span ['│'],
      Seg.marker ['0']] ++ segs ++
      [Seg.span (List.replicate (boxPad width (renderST segs)) ' '),
       Seg.marker cp, Seg.span ['│'], Seg.marker ['0']]) = true := by
    simp [wfStyled, List.all_append, List.all_cons, Seg.wf, hcp', hsp, hw']
    decide
  rw [hrow, stripAnsi_renderST hwf]
  simp [visibleContent, Seg.visible]

theorem progressRun_succ (seconds : ℚ) (elapsedAt : ℕ → ℚ) (fuel ticks : ℕ)
    (h0 : ¬ seconds = 0) (hlt : ¬ 1 ≤ pyMin (elapsedAt ticks / seconds) 1) :
    progressRun seconds elapsedAt (fuel + 1) ticks =
      progressRun seconds elapsedAt fuel (ticks + 1) := by
  rw [progressRun, if_neg h0, if_neg hlt]

/-! Claims. -/

/-- C1 (counterexample): calling `progress_bar` with `seconds = 0` does not
complete after a single redraw at 100%: the very first tick computes
`elapsed / seconds` with `seconds = 0`, a Python `ZeroDivisionError`, before
any redraw happens. -/
theorem C1_progress_zero_cex :
    progressRun 0 (fun _ => 0) 1 0 = none ∧
      ¬ progressRun 0 (fun _ => 0) 1 0 = some (some 1) := by
  decide

/-- C1 (amended): `progress_bar` does not handle non-positive durations by
immediate completion.  With `seconds = 0` the first tick divides by zero
(the call raises before any redraw); with `seconds < 0` and non-negative
wall-clock readings every tick's fraction is at most 0, the completion test
`pct >= 1.0` never succeeds, and the loop is still running after any number
of iterations. -/
theorem C1_progress_nonpositive (seconds : ℚ) (elapsedAt : ℕ → ℚ)
    (fuel ticks : ℕ) (he : ∀ n, 0 ≤ elapsedAt n) (hs : seconds ≤ 0) :
    progressRun seconds elapsedAt (fuel + 1) ticks =
      if seconds = 0 then none else some none := by
  by_cases h0 : seconds = 0
  · simp [progressRun, h0]
  · rw [if_neg h0]
    have hlt : ∀ t : ℕ, ¬ 1 ≤ pyMin (elapsedAt t / seconds) 1 := by
      intro t
      have hdiv : elapsedAt t / seconds ≤ 0 :=
        div_nonpos_iff.mpr (Or.inl ⟨he t, hs⟩)
      rw [pyMin, if_pos (hdiv.trans zero_le_one)]
      intro h1
      linarith
    induction fuel generalizing ticks with
    | zero =>
      rw [progressRun_succ _ _ _ _ h0 (hlt ticks)]
      rfl
    | succ f ih =>
      rw [progressRun_succ _ _ _ _ h0 (hlt ticks)]
      exact ih (ticks + 1)

/-- C1 witness: the amended theorem applied at `seconds = -1` with the clock
pinned at 0. -/
theorem C1_progress_nonpositive_witness :
    ((-1 : ℚ) ≤ 0) ∧
    progressRun (-1) (fun _ => 0) 1 0 =
      if (-1 : ℚ) = 0 then none else some none :=
  ⟨by norm_num,
    C1_progress_nonpositive (-1) (fun _ => 0) 0 0 (fun _ => le_refl 0) (by norm_num)⟩

/-- C2 (counterexample): `draw_box` with `width=None` and an empty line list
does not resolve the width to 2 and succeed — `max()` over the empty sequence
of visible widths raises `ValueError`. -/
theorem C2_empty_lines_cex :
    resolveWidth none [] = none ∧ drawBox [] none cCyan = none ∧
      ¬ resolveWidth none [] = some 2 := by
  decide

/-- C2 (amended): when `width` is omitted and the line list is nonempty,
`draw_box` resolves the width to the maximum visible line width plus 2 (the
fold bounds every line's visible width and is attained by one of them); with
an explicit width it always succeeds, and on an empty line list with an
explicit width it emits just the top and bottom borders.  Only the
empty-list-with-omitted-width case fails (it raises instead of using
width 2). -/
theorem C2_draw_box_resolution (l : List Char) (ls : List (List Char))
    (w : ℕ) (color x : List Char) (hx : x ∈ l :: ls) :
    resolveWidth none (l :: ls) =
      some ((ls.map visibleLen).foldl max (visibleLen l) + 2) ∧
    visibleLen x ≤ (ls.map visibleLen).foldl max (visibleLen l) ∧
    ((ls.map visibleLen).foldl max (visibleLen l) = visibleLen l ∨
      (ls.map visibleLen).foldl max (visibleLen l) ∈ ls.map visibleLen) ∧
    drawBox [] (some w) color = some [boxTop color w, boxBottom color w] := by
  refine ⟨by simp [resolveWidth], ?_, foldl_max_mem _ _, by simp [drawBox, resolveWidth]⟩
  rcases List.mem_cons.mp hx with h | h
  · subst h
    exact le_foldl_max _ _
  · exact mem_le_foldl_max _ _ _ (List.mem_map_of_mem visibleLen h)

/-- C2 witness: the amended theorem applied to the one-line list `["hi"]`. -/
theorem C2_draw_box_resolution_witness :
    (['h', 'i'] : List Char) ∈ [['h', 'i']] ∧
    resolveWidth none [['h', 'i']] =
      some ((([] : List (List Char)).map visibleLen).foldl max
        (visibleLen ['h', 'i']) + 2) :=
  ⟨by decide,
    (C2_draw_box_resolution ['h', 'i'] [] 5 cCyan ['h', 'i'] (by decide)).1⟩

/-- C3 (counterexample): for `a = "ab"`, `b = "abcd"` the code reports 4
differing characters, not the 2 (0 prefix mismatches + 2 length difference)
the claim predicts: the positions beyond the shorter length ARE compared
character-by-character against the space padding. -/
theorem C3_char_diff_cex :
    charDiffs ['a', 'b'] ['a', 'b', 'c', 'd'] = 4 ∧
    specCharDiffs ['a', 'b'] ['a', 'b', 'c', 'd'] = 2 ∧
    ¬ charDiffs ['a', 'b'] ['a', 'b', 'c', 'd'] =
        specCharDiffs ['a', 'b'] ['a', 'b', 'c', 'd'] := by
  decide

/-- C3 (amended): the CHARACTER-granularity `mismatchCount` equals the
spec's count (common-prefix mismatches plus the absolute length difference)
PLUS one extra for every non-space character of the longer input beyond the
shorter length — because both inputs are space-padded to the longer length
and compared over the padded strings, positions past the shorter length are
compared against `' '` and, when non-space, counted a second time on top of
the length-difference term. -/
theorem C3_char_diff_padded : ∀ (a b : List Char),
    charDiffs a b = specCharDiffs a b + extraNonSpace a b := by
  intro a
  induction a with
  | nil =>
    intro b
    simp only [charDiffs, specCharDiffs, extraNonSpace, List.length_nil,
      Nat.zero_max, List.drop_nil, List.drop_zero, List.filter_nil]
    rw [show ljust [] b.length = List.replicate b.length ' ' by simp [ljust],
      ljust_self, countMismatch_replicate_space]
    simp only [countMismatch]
    omega
  | cons a₀ as ih =>
    intro b
    cases b with
    | nil =>
      simp only [charDiffs, specCharDiffs, extraNonSpace, List.length_nil,
        Nat.max_zero, List.drop_nil, List.drop_zero, List.filter_nil]
      rw [ljust_self,
        show ljust [] (a₀ :: as).length = List.replicate (a₀ :: as).length ' ' by
          simp [ljust],
        countMismatch_comm, countMismatch_replicate_space]
      simp only [countMismatch, List.length_cons]
      omega
    | cons b₀ bs =>
      have hM : max (a₀ :: as).length (b₀ :: bs).length =
          max as.length bs.length + 1 := by
        simp only [List.length_cons]
        omega
      have ih' := ih bs
      simp only [charDiffs, specCharDiffs, extraNonSpace] at ih' ⊢
      rw [hM, ljust_cons, ljust_cons]
      simp only [countMismatch, List.length_cons, List.drop_succ_cons]
      generalize (if a₀ = b₀ then 0 else 1) = k
      omega

/-- C4: the bit-level summary statistics are computed over the FULL underlying
bit sequences: `bit_diffs_total` equals the number of positions of the whole
(equal-length) sequences where the bits differ, for every display cap
`showBits`; the cap affects only the marker line, whose mismatch carets mark
exactly the mismatches among the first `showBits` positions. -/
theorem C4_bit_summary_full (ba bb : List Char) (k : ℕ)
    (hlen : ba.length = bb.length) :
    (avalanchePart3 ba bb k).1 = specMismatchSum ba bb ∧
    caretCount ((avalanchePart3 ba bb k).2) =
      countMismatch (ba.take k) (bb.take k) :=
  ⟨countMismatch_eq_specSum hlen, caretCount_bitMarkerLine ba bb k⟩

/-- C4 witness: the theorem applied to two 4-bit strings with display cap 2. -/
theorem C4_bit_summary_full_witness :
    (['0', '1', '1', '0'] : List Char).length =
      (['0', '0', '1', '1'] : List Char).length ∧
    caretCount ((avalanchePart3 ['0', '1', '1', '0'] ['0', '0', '1', '1'] 2).2) =
      countMismatch ((['0', '1', '1', '0'] : List Char).take 2)
        ((['0', '0', '1', '1'] : List Char).take 2) :=
  ⟨by decide, (C4_bit_summary_full ['0', '1', '1', '0'] ['0', '0', '1', '1'] 2
    (by decide)).2⟩

/-- C5: for equal-length sequences the diff's mismatch count equals the number
of positions where the symbols differ (`Σ_i [a_i ≠ b_i]`), both for the hex
marker loop and for the paired count used for bits; for two identical
sequences the count is 0 and the marker line is exactly one match glyph
(dim `·`) per position, with no caret. -/
theorem C5_diff_mismatch_count (a b : List Char) (hlen : a.length = b.length) :
    (hexDiffLine (a.zip b)).2 = specMismatchSum a b ∧
    countMismatch a b = specMismatchSum a b ∧
    (hexDiffLine (a.zip a)).2 = 0 ∧
    (hexDiffLine (a.zip a)).1 =
      (List.replicate a.length (cDim ++ ['·'] ++ cReset)).flatten := by
  refine ⟨?_, countMismatch_eq_specSum hlen, (hexDiffLine_self a).2,
    (hexDiffLine_self a).1⟩
  rw [hexDiffLine_snd, countMismatch_eq_specSum hlen]

/-- C5 witness: the theorem applied to `"ab"` and `"ac"`. -/
theorem C5_diff_mismatch_count_witness :
    (['a', 'b'] : List Char).length = (['a', 'c'] : List Char).length ∧
    (hexDiffLine ((['a', 'b'] : List Char).zip ['a', 'c'])).2 =
      specMismatchSum ['a', 'b'] ['a', 'c'] :=
  ⟨by decide, (C5_diff_mismatch_count ['a', 'b'] ['a', 'c'] (by decide)).1⟩

/-- C6: the visible width `len(strip_ansi(s))` depends only on the visible
content of a StyledText: it equals the length of the concatenated visible
spans, so any two StyledTexts with the same visible content — in particular
one obtained from the other by inserting or removing style markers — have the
same visible width; the empty string has visible width 0. -/
theorem C6_visible_width_invariant (s t : List Seg)
    (hs : wfStyled s = true) (ht : wfStyled t = true)
    (hvis : visibleContent s = visibleContent t) :
    visibleLen (renderST s) = (visibleContent s).length ∧
    visibleLen (renderST s) = visibleLen (renderST t) ∧
    visibleLen ([] : List Char) = 0 := by
  refine ⟨visibleLen_renderST hs, ?_, rfl⟩
  rw [visibleLen_renderST hs, visibleLen_renderST ht, hvis]

/-- C6 witness: wrapping `"hi"` in red/reset markers leaves its visible
width unchanged. -/
theorem C6_visible_width_invariant_witness :
    wfStyled [Seg.span ['h', 'i']] = true ∧
    wfStyled [Seg.marker ['9', '1'], Seg.span ['h', 'i'], Seg.marker ['0']] = true ∧
    visibleLen (renderST [Seg.span ['h', 'i']]) =
      visibleLen (renderST [Seg.marker ['9', '1'], Seg.span ['h', 'i'],
        Seg.marker ['0']]) :=
  ⟨by decide, by decide,
    (C6_visible_width_invariant _ _ (by decide) (by decide) (by decide)).2.1⟩

/-- C7: every `draw_box` content row has visible width
`6 + max width (visibleLen line)` (4 indent columns, 2 border glyphs, and a
content area of exactly the resolved width): when no line exceeds the width
the content area is `width` for every row, the padding satisfies
`visibleLen + padding = width`, and a too-wide line overflows (padding clamps
to 0) rather than being truncated. -/
theorem C7_box_rows_aligned (segs : List Seg) (cp : List Char) (width : ℕ)
    (hw : wfStyled segs = true) (hcp : ∀ c ∈ cp, isParamChar c = true) :
    (stripAnsi (boxRow (Seg.render (.marker cp)) width (renderST segs))).length =
      6 + max width (visibleLen (renderST segs)) ∧
    (visibleLen (renderST segs) ≤ width →
      (stripAnsi (boxRow (Seg.render (.marker cp)) width (renderST segs))).length =
        width + 6) ∧
    visibleLen (renderST segs) + boxPad width (renderST segs) =
      max width (visibleLen (renderST segs)) := by
  have hlen := visibleLen_renderST hw
  have hstrip := stripAnsi_boxRow segs cp width hw hcp
  have hpad : boxPad width (renderST segs) =
      ((width : ℤ) - (visibleLen (renderST segs) : ℤ)).toNat := rfl
  have hrowlen : (stripAnsi (boxRow (Seg.render (.marker cp)) width
      (renderST segs))).length =
      6 + (visibleContent segs).length + boxPad width (renderST segs) := by
    rw [hstrip]
    simp only [List.length_append, List.length_replicate, List.length_cons,
      List.length_nil]
    omega
  refine ⟨?_, ?_, ?_⟩
  · rw [hrowlen, ← hlen, hpad]
    omega
  · intro hle
    rw [hrowlen, ← hlen, hpad]
    omega
  · rw [hpad]
    omega

/-- C7 witness: a red-styled `"hi"` in a width-10 box gives a row of visible
width 16. -/
theorem C7_box_rows_aligned_witness :
    wfStyled [Seg.marker ['9', '1'], Seg.span ['h', 'i'], Seg.marker ['0']] = true ∧
    (∀ c ∈ ['9', '6'], isParamChar c = true) ∧
    (stripAnsi (boxRow (Seg.render (.marker ['9', '6'])) 10
      (renderST [Seg.marker ['9', '1'], Seg.span ['h', 'i'],
        Seg.marker ['0']]))).length = 10 + 6 :=
  ⟨by decide, by decide,
    (C7_box_rows_aligned _ ['9', '6'] 10 (by decide) (by decide)).2.1 (by decide)⟩

/-- C8: a `draw_buckets` row with an empty bucket renders its content cell as
the dimmed literal `empty` padded (with the leading space) to visible width
exactly `content_w = 44`; a non-empty bucket's cell is the comma-joined item
list, likewise padded to visible width 44 whenever the joined list fits the
column. -/
theorem C8_bucket_cell (its : List (List Char)) (hne : its ≠ [])
    (hplain : ∀ s ∈ its, ∀ c ∈ s, ¬ c = escChar)
    (hwidth : visibleLen (joinComma its) + 1 ≤ contentW) :
    contentCell [] = [' '] ++ cDim ++ ['e', 'm', 'p', 't', 'y'] ++ cReset ++
      List.replicate 38 ' ' ∧
    stripAnsi (contentCell []) =
      [' ', 'e', 'm', 'p', 't', 'y'] ++ List.replicate 38 ' ' ∧
    (stripAnsi (contentCell [])).length = contentW ∧
    contentCell its = [' '] ++ joinComma its ++
      List.replicate (max ((contentW : ℤ) - visibleLen (joinComma its) - 1)
        0).toNat ' ' ∧
    (stripAnsi (contentCell its)).length = contentW := by
  have hcell : contentCell its = [' '] ++ joinComma its ++
      List.replicate (max ((contentW : ℤ) - visibleLen (joinComma its) - 1)
        0).toNat ' ' := by
    cases its with
    | nil => exact absurd rfl hne
    | cons x xs => rfl
  have hjoin : ∀ c ∈ joinComma its, ¬ c = escChar := joinComma_noesc its hplain
  have hvis : visibleLen (joinComma its) = (joinComma its).length := by
    rw [visibleLen, stripAnsi_noesc hjoin]
  have hnoesc : ∀ c ∈ ([' '] ++ joinComma its ++
      List.replicate (max ((contentW : ℤ) - visibleLen (joinComma its) - 1)
        0).toNat ' '), ¬ c = escChar := by
    intro c hc
    rcases List.mem_append.mp hc with h1 | h2
    · rcases List.mem_append.mp h1 with ha | hb
      · rcases List.mem_cons.mp ha with h | h
        · subst h; decide
        · simp at h
      · exact hjoin c hb
    · rw [List.eq_of_mem_replicate h2]
      decide
  refine ⟨by decide, by decide, by decide, hcell, ?_⟩
  rw [hcell, stripAnsi_noesc hnoesc]
  simp only [List.length_append, List.length_replicate, List.length_cons,
    List.length_nil]
  rw [← hvis]
  rw [contentW] at hwidth ⊢
  omega

/-- C8 witness: the theorem applied to the one-item bucket `["Cat"]`. -/
theorem C8_bucket_cell_witness :
    ([['C', 'a', 't']] : List (List Char)) ≠ [] ∧
    (∀ s ∈ ([['C', 'a', 't']] : List (List Char)), ∀ c ∈ s, ¬ c = escChar) ∧
    visibleLen (joinComma [['C', 'a', 't']]) + 1 ≤ contentW ∧
    (stripAnsi (contentCell [['C', 'a', 't']])).length = contentW :=
  ⟨by decide, by decide, by decide,
    (C8_bucket_cell [['C', 'a', 't']] (by decide) (by decide)
      (by decide)).2.2.2.2⟩

/-- C9: `toy_hash(text, num_buckets)` is the sum of the code points of the
text's characters modulo `num_buckets`, hence always lies in
`[0, num_buckets)` for `num_buckets ≥ 1` (and, being a pure function of its
arguments, is deterministic). -/
theorem C9_toy_hash_range (text : List Char) (n : ℕ) (hn : 1 ≤ n) :
    toyHash text n = (text.map Char.toNat).sum % n ∧ toyHash text n < n :=
  ⟨rfl, Nat.mod_lt _ hn⟩

/-- C9 witness: `toy_hash("Cat", 8)` — also checking the docstring's worked
example value 0. -/
theorem C9_toy_hash_range_witness :
    1 ≤ 8 ∧
    (toyHash ['C', 'a', 't'] 8 =
      ((['C', 'a', 't'] : List Char).map Char.toNat).sum % 8 ∧
      toyHash ['C', 'a', 't'] 8 < 8) ∧
    toyHash ['C', 'a', 't'] 8 = 0 :=
  ⟨by decide, C9_toy_hash_range ['C', 'a', 't'] 8 (by decide), by decide⟩

/-- C10: `strip_ansi` removes exactly the substrings matching
`\033[<digits/semicolons>m`: a well-formed SGR sequence is deleted, any
non-escape character is kept, and other ANSI sequences — e.g. the
cursor-movement sequence `\033[2A` — and a bare escape character are kept in
full and therefore count toward the visible width used for padding. -/
theorem C10_strip_sgr_only (p rest : List Char) (c : Char)
    (hp : ∀ x ∈ p, isParamChar x = true) (hc : ¬ c = escChar) :
    stripAnsi (escChar :: '[' :: (p ++ 'm' :: rest)) = stripAnsi rest ∧
    stripAnsi (c :: rest) = c :: stripAnsi rest ∧
    stripAnsi [escChar, '[', '2', 'A', 'h', 'i'] =
      [escChar, '[', '2', 'A', 'h', 'i'] ∧
    visibleLen [escChar, '[', '2', 'A', 'h', 'i'] = 6 ∧
    stripAnsi [escChar] = [escChar] :=
  ⟨stripAnsi_sgr rest hp, stripAnsi_cons_nomatch (matchSgr_nonesc hc rest),
    by decide, by decide, by decide⟩

/-- C10 witness: the theorem applied to the red color code's parameters and
the character `x`. -/
theorem C10_strip_sgr_only_witness :
    (∀ x ∈ ['9', '1'], isParamChar x = true) ∧ ¬ 'x' = escChar ∧
    stripAnsi (escChar :: '[' :: (['9', '1'] ++ 'm' :: ['h'])) = stripAnsi ['h'] :=
  ⟨by decide, by decide, (C10_strip_sgr_only ['9', '1'] ['h'] 'x'
    (by decide) (by decide)).1⟩

end HashingLab
